import Mathlib

/-!
# Verification of the aipack script-bridge path/file/json core

This development embeds the path join/split engine, the file access
service, the glob listing path reconciliation, the option marshaling and
the JSON codec of the repository's Lua script bridge
(`src/script/lua_script/utils_path.rs`, `utils_file/file_common.rs`,
`helpers.rs`, `utils_json.rs`) and proves or refutes the specified
properties about them.

Paths are modelled as lists of characters (`PathStr`); the host is
modelled as a Unix host (`MAIN_SEPARATOR = '/'`), matching the test
environment of the repository.  Rust byte indexing is modelled by
character indexing; every concrete path in the statements below is ASCII,
where the two coincide.
-/

namespace Aipack

/-- A path string, modelled as its list of characters. -/
abbrev PathStr := List Char

/-- Characters treated as path separators by the OS-normalized join
(`utils_path.rs` trims and splits on both `/` and `\`). -/
def isSepChar (c : Char) : Bool := c = '/' || c = '\\'

/-- Shorthand: the character list of a string literal. -/
def strL (s : String) : PathStr := s.data

-- region: std::path components model (Unix)

/-- One component of a path, after `std::path::Path::components` parsing:
root, `.`, `..`, or a normal segment. -/
inductive Component
  | rootDir
  | curDir
  | parentDir
  | normal (s : PathStr)
deriving DecidableEq, Repr

/-- Split a character list on `/`, keeping empty pieces
(e.g. `"a//b"` gives `["a", "", "b"]`, `""` gives `[""]`). -/
def splitSep : PathStr → List PathStr
  | [] => [[]]
  | c :: rest =>
    if c = '/' then [] :: splitSep rest
    else
      match splitSep rest with
      | [] => [[c]]
      | h :: t => (c :: h) :: t

/-- Classify one raw non-empty path piece. -/
def toComp (s : PathStr) : Component :=
  if s = ['.'] then .curDir
  else if s = ['.', '.'] then .parentDir
  else .normal s

/-- Classify the non-empty raw pieces of a path. -/
def parseBody (p : PathStr) : List Component :=
  ((splitSep p).filter (· ≠ [])).map toComp

/-- Model of `std::path::Path::components` on a Unix host: a leading `/`
is the root; empty pieces are dropped; `.` pieces are dropped except a
leading `.` on a rootless path. -/
def parseComponents (p : PathStr) : List Component :=
  if p.head? = some '/' then
    Component.rootDir :: (parseBody p).filter (· ≠ Component.curDir)
  else if (parseBody p).head? = some Component.curDir then
    Component.curDir :: (parseBody p).filter (· ≠ Component.curDir)
  else (parseBody p).filter (· ≠ Component.curDir)

/-- Join a list of pieces with a single separator character between
consecutive pieces (no trimming; `[]` gives `[]`). -/
def joinWith (sep : Char) : List PathStr → PathStr
  | [] => []
  | h :: t => h ++ t.flatMap (fun p => sep :: p)

/-- Text of one component (`rootDir` is rendered by `renderComponents`). -/
def renderComp : Component → PathStr
  | .rootDir => []
  | .curDir => ['.']
  | .parentDir => ['.', '.']
  | .normal s => s

/-- Re-render a component list as a path string. -/
def renderComponents : List Component → PathStr
  | .rootDir :: rest => '/' :: joinWith '/' (rest.map renderComp)
  | cs => joinWith '/' (cs.map renderComp)

/-- Model of `Path::parent`, rendered as a string: drop the last component; `None`
when there is no last component or it is the root. -/
def pathParent (p : PathStr) : Option PathStr :=
  match (parseComponents p).getLast? with
  | some (.normal _) | some .curDir | some .parentDir =>
    some (renderComponents (parseComponents p).dropLast)
  | _ => none

/-- Model of `Path::file_name`: the last component when it is a normal segment. -/
def pathFileName (p : PathStr) : Option PathStr :=
  match (parseComponents p).getLast? with
  | some (.normal s) => some s
  | _ => none

/-- Model of `path.split` from `utils_path.rs`: `(parent, filename)`, each
defaulting to the empty string. -/
def pathSplit (p : PathStr) : PathStr × PathStr :=
  ((pathParent p).getD [], (pathFileName p).getD [])

-- endregion

-- region: verbatim join (PathBuf::push)

/-- Model of `std::path::PathBuf::push` on a Unix host: an absolute path replaces
the buffer; otherwise a separator is inserted when needed. -/
def pathBufPush (buf : PathStr) (s : PathStr) : PathStr :=
  if s.head? = some '/' then s
  else if buf ≠ [] ∧ buf.getLast? ≠ some '/' then buf ++ '/' :: s
  else buf ++ s

/-- The list form of `path.join` / `path.join_os_non_normalized`
(`utils_path.rs` lines 163-183): push every entry of the list onto an
empty `PathBuf`.  An empty list yields the empty string. -/
def pathJoinList (frags : List PathStr) : PathStr :=
  frags.foldl pathBufPush []

/-- The variadic form of `path.join`: zero arguments yield `none`
(Lua `nil`); otherwise as the list form. -/
def pathJoinVar (frags : List PathStr) : Option PathStr :=
  if frags.isEmpty then none else some (pathJoinList frags)

-- endregion

-- region: OS-normalized join

/-- Model of `is_windows_style` (`utils_path.rs` lines 252-254): second character
is `:`, or the string begins with `\`. -/
def isWindowsStyle (s : PathStr) : Bool :=
  (decide (s.length ≥ 2) && (s.getD 1 ' ' == ':')) || (s.head? == some '\\')

/-- Remove trailing `/` and `\` characters. -/
def trimEndSeps (s : PathStr) : PathStr :=
  (s.reverse.dropWhile isSepChar).reverse

/-- Remove leading and trailing `/` and `\` characters. -/
def trimBothSeps (s : PathStr) : PathStr :=
  trimEndSeps (s.dropWhile isSepChar)

/-- Convert `/` to `\` (the Rust `replace("/", "\\")`). -/
def slashToBack (s : PathStr) : PathStr :=
  s.map fun c => if c = '/' then '\\' else c

/-- How one later fragment is prepared by the OS-normalized join: both
ends trimmed, forward slashes converted in Windows mode. -/
def partFn (isWin : Bool) (c : PathStr) : PathStr :=
  if isWin then slashToBack (trimBothSeps c) else trimBothSeps c

/-- The loop of `path_join_os_normalized`: for each later fragment, trim
both ends (converting to backslashes in Windows mode), skip it when it
trims to nothing, otherwise push a separator unless one is already
present, then the piece. -/
def joinLoop (sep : Char) (isWin : Bool) (acc : PathStr) : List PathStr → PathStr
  | [] => acc
  | c :: rest =>
    let part := partFn isWin c
    if part = [] then joinLoop sep isWin acc rest
    else if acc.getLast? = some sep then joinLoop sep isWin (acc ++ part) rest
    else joinLoop sep isWin (acc ++ sep :: part) rest

/-- Model of `path_join_os_normalized` (`utils_path.rs` lines 191-248), on a host
whose `MAIN_SEPARATOR` is `mainSep`.  Zero arguments yield `none`; empty
fragments are dropped; the first remaining fragment decides
Windows-style; the first fragment is trimmed only at its end. -/
def joinOsNormalized (mainSep : Char) (frags : List PathStr) : Option PathStr :=
  if frags.isEmpty then none
  else
    let comps := frags.filter (· ≠ [])
    match comps with
    | [] => some []
    | c0 :: rest =>
      let isWin := isWindowsStyle c0
      let sep := if isWin then '\\' else mainSep
      let first := if isWin then slashToBack (trimEndSeps c0) else trimEndSeps c0
      some (joinLoop sep isWin first rest)

-- endregion

-- region: path difference and glob-listing path reconciliation

/-- Drop the longest common leading run of two component lists. -/
def dropCommonStart : List Component → List Component → List Component × List Component
  | a :: as, b :: bs =>
    if a = b then dropCommonStart as bs else (a :: as, b :: bs)
  | as, bs => (as, bs)

/-- Model of `simple_fs::SPath::diff` (the `pathdiff` algorithm) on the paths this
core feeds it: strip the common leading components of the match and the
base directory, then climb with one `..` per remaining base component and
descend with the remaining match components. -/
def diffPath (f base : PathStr) : PathStr :=
  let (fRest, baseRest) := dropCommonStart (parseComponents f) (parseComponents base)
  renderComponents (baseRest.map (fun _ => Component.parentDir) ++ fRest)

/-- Does a rendered path start with `..` (the Rust
`diff.to_str().starts_with("..")` test in `file_common.rs`)? -/
def startsDotDot (p : PathStr) : Bool := p.take 2 == ['.', '.']

/-- The path stored in a `file.list` result for one matched file
(`file_common.rs` lines 187-204): the absolute match when the `absolute`
option is set; otherwise the difference from the base directory, falling
back to the absolute match when the difference climbs out of it. -/
def fileListPath (absolute : Bool) (base f : PathStr) : PathStr :=
  if absolute then f
  else
    let diff := diffPath f base
    if startsDotDot diff then f else diff

/-- The relative path a `file.list_load` record is loaded under and keeps
as its `path` (`file_common.rs` lines 256-270): same branching as
`file.list`, the escape case loading the absolute match against an empty
base. -/
def fileListLoadRel (absolute : Bool) (base f : PathStr) : PathStr :=
  if absolute then f
  else
    let diff := diffPath f base
    if startsDotDot diff then f else diff

/-- The path stored in the `file.first` result (`file_common.rs` lines
328-334): the absolute match, or the raw difference from the base
directory — with no fallback for a climbing difference. -/
def fileFirstPath (absolute : Bool) (base f : PathStr) : PathStr :=
  if absolute then f else diffPath f base

-- endregion

-- region: FileMeta and the filesystem model

/-- Splits a file name into stem and extension following
`Path::file_stem` / `Path::extension`: split at the last `.`, unless it
is the leading character or there is none. -/
def stemExt (name : PathStr) : PathStr × Option PathStr :=
  let rev := name.reverse
  let revSuf := rev.takeWhile (· ≠ '.')
  if revSuf.length = rev.length then (name, none)
  else
    let pre := (rev.drop (revSuf.length + 1)).reverse
    if pre = [] then (name, none) else (pre, some revSuf.reverse)

/-- Modelled from the spec: `FileMeta` (`crate::types`, not under `src/`)
is `{path, name, stem, ext}` derived purely from a path string, no I/O. -/
structure FileMeta where
  path : PathStr
  name : PathStr
  stem : PathStr
  ext : Option PathStr
deriving DecidableEq, Repr

/-- Build the `FileMeta` of a path. -/
def FileMeta.ofPath (p : PathStr) : FileMeta :=
  let name := (pathFileName p).getD []
  { path := p, name := name, stem := (stemExt name).1, ext := (stemExt name).2 }

/-- A filesystem: a partial map from (path string) to text content. -/
def Fs := PathStr → Option String

/-- Write one file. -/
def fsSet (fs : Fs) (p : PathStr) (c : String) : Fs :=
  fun q => if q = p then some c else fs q

/-- Modelled from the spec: `DirContext::resolve_path`
(`crate::dir_context`, not under `src/`) is pure composition against the
workspace base path; an absolute input is returned unchanged. -/
def resolvePath (wks : PathStr) (p : PathStr) : PathStr :=
  if p.head? = some '/' then p else pathBufPush wks p

/-- Modelled from the spec: `files::is_file_empty` (`crate::support`, not
under `src/`) — the file's content is empty or whitespace-only. -/
def isEmptyContent (content : String) : Bool :=
  content.data.all fun c => c = ' ' || c = '\t' || c = '\n' || c = '\r'

/-- The `content_when_empty` option of `file.ensure_exists`
(`file_common.rs` lines 342-346); defaults to `false`. -/
structure EnsureExistsOptions where
  content_when_empty : Bool := false
deriving DecidableEq, Repr

/-- Model of `file_ensure_exists` (`file_common.rs` lines 118-144) as a transformer
of the filesystem model: create the file (with `content` or `""`) when it
does not exist; overwrite it when it is whitespace-only and
`content_when_empty` is set; otherwise leave the filesystem unchanged.
Always returns the `FileMeta` of the relative target path.  (Parent
directory creation is outside the file-content model.) -/
def fileEnsureExists (wks : PathStr) (p : PathStr) (content : Option String)
    (options : Option EnsureExistsOptions) (fs : Fs) : FileMeta × Fs :=
  let opts := options.getD {}
  let fullPath := resolvePath wks p
  match fs fullPath with
  | none => (FileMeta.ofPath p, fsSet fs fullPath (content.getD ""))
  | some existing =>
    if opts.content_when_empty && isEmptyContent existing then
      (FileMeta.ofPath p, fsSet fs fullPath (content.getD ""))
    else
      (FileMeta.ofPath p, fs)

-- endregion

-- region: Lua value marshaling

/-- The dynamic Lua values reaching this core (`mlua::Value`), restricted
to the shapes the marshaling layer inspects.  A table is modelled as its
named fields plus its integer-keyed sequence part. -/
inductive LuaValue
  | nil
  | boolean (b : Bool)
  | num (n : Int)
  | str (s : String)
  | table (fields : List (String × LuaValue)) (seq : List LuaValue)
deriving Repr

/-- Look up a named field of a table field list. -/
def lookupField (fields : List (String × LuaValue)) (key : String) : Option LuaValue :=
  (fields.find? (fun kv => kv.1 = key)).map (·.2)

/-- Model of `to_vec_of_strings` (`helpers.rs` lines 5-41): a string becomes a
one-element list; a table must be a sequence of strings; anything else is
a shape error naming the offending argument. -/
def toVecOfStrings (value : LuaValue) (errPrefix : String) : Except String (List String) :=
  match value with
  | .str s => .ok [s]
  | .table _ seq =>
    let rec collect : List LuaValue → Except String (List String)
      | [] => .ok []
      | .str s :: rest => (collect rest).map (s :: ·)
      | _ :: _ => .error (errPrefix ++ " - Table contains non-string values")
    collect seq
  | _ => .error (errPrefix ++ " - Expected a string or a list of strings")

/-- Model of `get_value_prop_as_string` (`helpers.rs` lines 45-68): absent value
is fine; a non-table value is an error; a present non-string property is
an error (whose text names `options.base_dir` and the type `string`). -/
def getValuePropAsString (value : Option LuaValue) (propName : String)
    (errPrefix : String) : Except String (Option String) :=
  match value with
  | none => .ok none
  | some v =>
    match v with
    | .table fields _ =>
      match lookupField fields propName with
      | some (.str s) => .ok (some s)
      | some _ =>
        .error "utils.file... options.base_dir must be of type string is present"
      | none => .ok none
    | _ => .error (errPrefix ++ " - value should be of type lua table, but was of another type.")

/-- Modelled from the spec: `paths::is_relative` (`crate::support`, not
under `src/`) — a path not starting at the filesystem root. -/
def isRelative (p : String) : Bool := ¬ p.data.head? = some '/'

/-- Model of `compute_base_dir` (`file_common.rs` lines 375-394): the workspace
directory by default; a relative `base_dir` option is joined onto it; an
absolute one is taken as-is. -/
def computeBaseDir (wks : PathStr) (options : Option LuaValue) : Except String PathStr :=
  (getValuePropAsString options "base_dir" "utils.file... options fail").map fun baseDir =>
    match baseDir with
    | some bd => if isRelative bd then pathBufPush wks bd.data else bd.data
    | none => wks

/-- The Lua truthiness conversion the embedded engine applies when a
value is requested as `bool` (`mlua`'s `FromLua for bool` contract):
`nil` and `false` are false, every other value is true — never an
error. -/
def luaTruthy : LuaValue → Bool
  | .nil => false
  | .boolean b => b
  | _ => true

/-- Model of `EnsureExistsOptions::from_lua` (`file_common.rs` lines 348-358): the
value must be a table; its `content_when_empty` field is read as a Lua
boolean (missing means `nil`, hence `false`). -/
def EnsureExistsOptions.fromLua (value : LuaValue) : Except String EnsureExistsOptions :=
  match value with
  | .table fields _ =>
    .ok { content_when_empty := luaTruthy ((lookupField fields "content_when_empty").getD .nil) }
  | _ => .error "EnsureExistsOptions should be a table"

/-- The options argument of `file.ensure_exists` as received by
`file_ensure_exists`: an omitted argument means the defaults
(`options.unwrap_or_default()`). -/
def EnsureExistsOptions.ofLuaOpt : Option LuaValue → Except String EnsureExistsOptions
  | none => .ok {}
  | some v => EnsureExistsOptions.fromLua v

/-- Modelled from the spec: `LuaValueExt::x_get_bool` (`crate::script`,
not under `src/`) — a named boolean property of an optional table, `none`
when absent; the call sites default it, giving `absolute = false`. -/
def xGetBool (value : Option LuaValue) (key : String) : Option Bool :=
  match value with
  | some (.table fields _) =>
    match lookupField fields key with
    | some (.boolean b) => some b
    | _ => none
  | _ => none

-- endregion

-- region: listing pipeline (file.list / file.list_load / file.first)

/-- Model of `FileRecord`: a `FileMeta` plus the file text at read time.
Modelled from the spec for `crate::types` (not under `src/`): `load`
reads `base.join(rel)` and keeps `rel` as the record path. -/
structure FileRecord where
  meta : FileMeta
  content : String
deriving DecidableEq, Repr

/-- Model of `FileRecord::load` against the filesystem model. -/
def FileRecord.load (fs : Fs) (base rel : PathStr) : Except String FileRecord :=
  match fs (pathBufPush base rel) with
  | some content => .ok { meta := FileMeta.ofPath rel, content := content }
  | none => .error "read error"

/-- Model of `base_dir_and_globs` (`file_common.rs` lines 365-373). -/
def baseDirAndGlobs (wks : PathStr) (includeGlobs : LuaValue) (options : Option LuaValue) :
    Except String (PathStr × List String) := do
  let globs ← toVecOfStrings includeGlobs "file::file_list globs argument"
  let baseDir ← computeBaseDir wks options
  .ok (baseDir, globs)

/-- Model of `file_list` (`file_common.rs` lines 169-210), with the glob walk
abstracted as `walk` (base directory and patterns to matched paths, or a
glob error): every error propagates, and each match's reported path is
reconciled with the base directory by `fileListPath`. -/
def fileList (wks : PathStr) (includeGlobs : LuaValue) (options : Option LuaValue)
    (walk : PathStr → List String → Except String (List PathStr)) :
    Except String (List FileMeta) := do
  let (basePath, globs) ← baseDirAndGlobs wks includeGlobs options
  let absolute := (xGetBool options "absolute").getD false
  let sfiles ← walk basePath globs
  .ok (sfiles.map fun f => FileMeta.ofPath (fileListPath absolute basePath f))

/-- Model of `file_list_load` (`file_common.rs` lines 236-279): as `file_list`,
but each reconciled match is loaded into a `FileRecord`. -/
def fileListLoad (wks : PathStr) (includeGlobs : LuaValue) (options : Option LuaValue)
    (walk : PathStr → List String → Except String (List PathStr)) (fs : Fs) :
    Except String (List FileRecord) := do
  let (basePath, globs) ← baseDirAndGlobs wks includeGlobs options
  let absolute := (xGetBool options "absolute").getD false
  let sfiles ← walk basePath globs
  sfiles.mapM fun f =>
    if absolute then FileRecord.load fs [] f
    else
      let diff := diffPath f basePath
      if startsDotDot diff then FileRecord.load fs [] f
      else FileRecord.load fs basePath diff

/-- Model of `file_first` (`file_common.rs` lines 307-339): the first match, as a
`FileMeta` whose path is the raw difference from the base directory (or
the absolute match when `absolute` is set); no match yields Lua `nil`,
modelled as `none`. -/
def fileFirst (wks : PathStr) (includeGlobs : LuaValue) (options : Option LuaValue)
    (walk : PathStr → List String → Except String (List PathStr)) :
    Except String (Option FileMeta) := do
  let (basePath, globs) ← baseDirAndGlobs wks includeGlobs options
  let absolute := (xGetBool options "absolute").getD false
  let sfiles ← walk basePath globs
  match sfiles with
  | [] => .ok none
  | f :: _ => .ok (some (FileMeta.ofPath (fileFirstPath absolute basePath f)))

-- endregion

-- region: JSON codec model (utils_json.rs call contract of serde_json)

/-- A structured JSON value as marshalled between the script and
`serde_json` (`utils_json.rs`).  Numbers are modelled as integers; `f64`
formatting is outside this embedding. -/
inductive Json
  | null
  | bool (b : Bool)
  | num (n : Int)
  | str (s : List Char)
  | arr (elems : List Json)
  | obj (fields : List (List Char × Json))

/-- Lowercase hexadecimal digit characters. -/
def hexDigitChar (n : Nat) : Char := (strL "0123456789abcdef").getD n '0'

/-- How `serde_json` escapes one character inside a JSON string: the
named escapes for quote, backslash and the common control characters,
`\u00XX` for the remaining control characters, and the character itself
otherwise. -/
def escapeChar (c : Char) : List Char :=
  if c = '"' then ['\\', '"']
  else if c = '\\' then ['\\', '\\']
  else if c = '\x08' then ['\\', 'b']
  else if c = '\x0c' then ['\\', 'f']
  else if c = '\n' then ['\\', 'n']
  else if c = '\r' then ['\\', 'r']
  else if c = '\t' then ['\\', 't']
  else if c.toNat < 32 then
    ['\\', 'u', '0', '0', hexDigitChar (c.toNat / 16), hexDigitChar (c.toNat % 16)]
  else [c]

/-- Escape a whole string body. -/
def escapeStr (s : List Char) : List Char := s.flatMap escapeChar

/-- Decimal digits of a natural number, most significant first. -/
def digitsOf (n : Nat) : List Char :=
  if h : n < 10 then [Nat.digitChar n]
  else
    have : n / 10 < n := Nat.div_lt_self (by omega) (by omega)
    digitsOf (n / 10) ++ [Nat.digitChar (n % 10)]

/-- Decimal rendering of an integer. -/
def renderInt : Int → List Char
  | .ofNat m => digitsOf m
  | .negSucc m => '-' :: digitsOf (m + 1)

mutual

/-- Model of `serde_json::to_string` — the compact single-line rendering
used by `json.stringify_to_line` (`utils_json.rs` lines 148-156). -/
def renderJson : Json → List Char
  | .null => strL "null"
  | .bool true => strL "true"
  | .bool false => strL "false"
  | .num n => renderInt n
  | .str s => '"' :: escapeStr s ++ ['"']
  | .arr es => '[' :: renderItems es ++ [']']
  | .obj fs => '{' :: renderFields fs ++ ['}']

/-- Render array items, comma separated. -/
def renderItems : List Json → List Char
  | [] => []
  | [e] => renderJson e
  | e :: es => renderJson e ++ ',' :: renderItems es

/-- Render one object field as quoted key, colon, value. -/
def renderField (k : List Char) (v : Json) : List Char :=
  '"' :: escapeStr k ++ '"' :: ':' :: renderJson v

/-- Render object fields, comma separated. -/
def renderFields : List (List Char × Json) → List Char
  | [] => []
  | [(k, v)] => renderField k v
  | (k, v) :: fs => renderField k v ++ ',' :: renderFields fs

end

/-- Model of `json.stringify_to_line` (`utils_json.rs` lines 148-156):
serialize the structured value compactly on one line. -/
def stringify_to_line (v : Json) : List Char := renderJson v

/-- Numeric value of one hexadecimal digit character. -/
def hexVal (c : Char) : Option Nat :=
  if '0' ≤ c ∧ c ≤ '9' then some (c.toNat - 48)
  else if 'a' ≤ c ∧ c ≤ 'f' then some (c.toNat - 87)
  else if 'A' ≤ c ∧ c ≤ 'F' then some (c.toNat - 55)
  else none

/-- Decode a single-character JSON escape. -/
def decodeSimpleEscape : Char → Option Char
  | 'n' => some '\n'
  | 't' => some '\t'
  | 'b' => some '\x08'
  | 'r' => some '\r'
  | 'f' => some '\x0c'
  | '/' => some '/'
  | '"' => some '"'
  | '\\' => some '\\'
  | _ => none

/-- Parse a JSON string body after the opening quote, undoing the
escapes, up to the closing quote.  (Surrogate pairs are outside the
model; the serializer never emits them.) -/
def parseStringChars : List Char → Option (List Char × List Char)
  | [] => none
  | c :: rest =>
    if c = '"' then some ([], rest)
    else if c = '\\' then
      match rest with
      | 'u' :: a :: b :: c' :: d :: rest' => do
        let va ← hexVal a
        let vb ← hexVal b
        let vc ← hexVal c'
        let vd ← hexVal d
        let (s, r) ← parseStringChars rest'
        pure (Char.ofNat (((va * 16 + vb) * 16 + vc) * 16 + vd) :: s, r)
      | e :: rest' => do
        let ch ← decodeSimpleEscape e
        let (s, r) ← parseStringChars rest'
        pure (ch :: s, r)
      | [] => none
    else do
      let (s, r) ← parseStringChars rest
      pure (c :: s, r)

/-- Accumulate a run of decimal digits into a natural number. -/
def parseGo (acc : Nat) : List Char → Nat × List Char
  | [] => (acc, [])
  | c :: rest =>
    if c.isDigit then parseGo (acc * 10 + (c.toNat - 48)) rest else (acc, c :: rest)

/-- Require an exact run of characters, returning the remainder. -/
def expectChars : List Char → List Char → Option (List Char)
  | [], cs => some cs
  | e :: es, c :: cs => if c = e then expectChars es cs else none
  | _ :: _, [] => none

mutual

/-- Model of the `serde_json::from_str` value grammar used by
`json.parse` (`utils_json.rs` lines 60-65), fuelled for termination.
The serializer emits no inter-token whitespace, so the model omits
whitespace skipping. -/
def parseValue : Nat → List Char → Option (Json × List Char)
  | 0, _ => none
  | _ + 1, [] => none
  | fuel + 1, c :: rest =>
    if c = 'n' then (expectChars (strL "ull") rest).map (fun r => (.null, r))
    else if c = 't' then (expectChars (strL "rue") rest).map (fun r => (.bool true, r))
    else if c = 'f' then (expectChars (strL "alse") rest).map (fun r => (.bool false, r))
    else if c = '"' then (parseStringChars rest).map (fun sr => (.str sr.1, sr.2))
    else if c = '[' then
      if rest.head? = some ']' then some (.arr [], rest.tail)
      else parseArrRest fuel rest []
    else if c = '{' then
      if rest.head? = some '}' then some (.obj [], rest.tail)
      else parseObjRest fuel rest []
    else if c = '-' then
      if (rest.head?.map Char.isDigit).getD false then
        let nr := parseGo 0 rest
        some (.num (Int.negOfNat nr.1), nr.2)
      else none
    else if c.isDigit then
      let nr := parseGo 0 (c :: rest)
      some (.num (Int.ofNat nr.1), nr.2)
    else none

/-- Parse the remaining comma-separated items of a non-empty array. -/
def parseArrRest : Nat → List Char → List Json → Option (Json × List Char)
  | 0, _, _ => none
  | fuel + 1, cs, acc => do
    let (v, cs₁) ← parseValue fuel cs
    match cs₁ with
    | ',' :: cs₂ => parseArrRest fuel cs₂ (acc ++ [v])
    | ']' :: cs₂ => some (.arr (acc ++ [v]), cs₂)
    | _ => none

/-- Parse the remaining comma-separated fields of a non-empty object. -/
def parseObjRest : Nat → List Char → List (List Char × Json) → Option (Json × List Char)
  | 0, _, _ => none
  | fuel + 1, cs, acc =>
    match cs with
    | '"' :: cs₀ => do
      let (k, cs₁) ← parseStringChars cs₀
      match cs₁ with
      | ':' :: cs₂ => do
        let (v, cs₃) ← parseValue fuel cs₂
        match cs₃ with
        | ',' :: cs₄ => parseObjRest fuel cs₄ (acc ++ [(k, v)])
        | '}' :: cs₄ => some (.obj (acc ++ [(k, v)]), cs₄)
        | _ => none
      | _ => none
    | _ => none

end

/-- Model of `json.parse` (`utils_json.rs` lines 60-65): parse the whole
input as one JSON value; anything else is a parse error (`none`). -/
def parse (cs : List Char) : Option Json :=
  match parseValue (cs.length + 1) cs with
  | some (v, []) => some v
  | _ => none

-- endregion

-- region: Claims C1, C10 — listing escape fallback

/-- C1: For every glob listing call via `file.list` (and `file.list_load`)
with the `absolute` option unset, every matched file whose computed path
difference from the resolved base directory climbs out of that directory
(starts with `..`) is reported with its absolute path, and no returned
`FileMeta.path` is a climbing relative path beginning with `..`. -/
theorem c1_list_escape_fallback (base f : PathStr) (hf : f.head? = some '/') :
    (startsDotDot (diffPath f base) = true →
      fileListPath false base f = f ∧ fileListLoadRel false base f = f)
    ∧ startsDotDot (fileListPath false base f) = false
    ∧ startsDotDot (fileListLoadRel false base f) = false := by
  have habs : startsDotDot f = false := by
    cases f with
    | nil => simp at hf
    | cons c t =>
      have hc : c = '/' := by simpa using hf
      subst hc
      simp [startsDotDot]
  unfold fileListPath fileListLoadRel
  by_cases h : startsDotDot (diffPath f base) = true
  · simp [h, habs]
  · have h' : startsDotDot (diffPath f base) = false := by
      revert h; cases startsDotDot (diffPath f base) <;> simp
    simp [h']

/-- Witness for C1 at a concrete escaping match: base `/w/base`, match
`/x/y.txt`, whose difference `../../x/y.txt` climbs out. -/
theorem c1_witness :
    startsDotDot (diffPath (strL "/x/y.txt") (strL "/w/base")) = true
    ∧ fileListPath false (strL "/w/base") (strL "/x/y.txt") = strL "/x/y.txt"
    ∧ fileListLoadRel false (strL "/w/base") (strL "/x/y.txt") = strL "/x/y.txt"
    ∧ startsDotDot (fileListPath false (strL "/w/base") (strL "/x/y.txt")) = false := by
  have h := c1_list_escape_fallback (strL "/w/base") (strL "/x/y.txt") (by rfl)
  have hd : startsDotDot (diffPath (strL "/x/y.txt") (strL "/w/base")) = true := by decide
  exact ⟨hd, (h.1 hd).1, (h.1 hd).2, h.2.1⟩

/-- C10: `file.first` does not apply the escape fallback of `file.list`:
with `absolute` unset, a first match whose difference from the base
directory climbs out of it is returned under that raw climbing difference
(starting with `..`), where `file.list` would report the absolute path. -/
theorem c10_first_no_escape_fallback (base f : PathStr)
    (h : startsDotDot (diffPath f base) = true) :
    fileFirstPath false base f = diffPath f base
    ∧ startsDotDot (fileFirstPath false base f) = true
    ∧ fileListPath false base f = f := by
  refine ⟨rfl, ?_, ?_⟩
  · simpa [fileFirstPath] using h
  · simp [fileListPath, h]

/-- Witness for C10 at the same concrete escaping match. -/
theorem c10_witness :
    fileFirstPath false (strL "/w/base") (strL "/x/y.txt")
      = diffPath (strL "/x/y.txt") (strL "/w/base")
    ∧ startsDotDot (fileFirstPath false (strL "/w/base") (strL "/x/y.txt")) = true
    ∧ fileListPath false (strL "/w/base") (strL "/x/y.txt") = strL "/x/y.txt" :=
  c10_first_no_escape_fallback _ _ (by decide)

-- endregion

-- region: Claims C2, C3 — ensure_exists

/-- C2: `ensure_exists` is idempotent without `content_when_empty`: after
`ensure_exists(p, "X")` has created the file, a further call without
options (even with different content) returns the same `FileMeta` and
leaves the filesystem — in particular the file's content, still `"X"` —
unchanged. -/
theorem c2_ensure_exists_idempotent (wks p : PathStr) (c2 : Option String) (fs : Fs)
    (h : fs (resolvePath wks p) = none) :
    ((fileEnsureExists wks p (some "X") none fs).2) (resolvePath wks p) = some "X"
    ∧ fileEnsureExists wks p c2 none ((fileEnsureExists wks p (some "X") none fs).2)
      = (FileMeta.ofPath p, (fileEnsureExists wks p (some "X") none fs).2) := by
  have h1 : ((fileEnsureExists wks p (some "X") none fs).2) (resolvePath wks p) = some "X" := by
    simp [fileEnsureExists, h, fsSet]
  refine ⟨h1, ?_⟩
  generalize hfs1 : (fileEnsureExists wks p (some "X") none fs).2 = fs1 at h1 ⊢
  simp [fileEnsureExists, h1]

/-- Witness for C2: a fresh file `f` under workspace `/w`. -/
theorem c2_witness :
    ((fileEnsureExists (strL "/w") (strL "f") (some "X") none (fun _ => none)).2)
      (resolvePath (strL "/w") (strL "f")) = some "X"
    ∧ fileEnsureExists (strL "/w") (strL "f") (some "Z") none
        ((fileEnsureExists (strL "/w") (strL "f") (some "X") none (fun _ => none)).2)
      = (FileMeta.ofPath (strL "f"),
         (fileEnsureExists (strL "/w") (strL "f") (some "X") none (fun _ => none)).2) :=
  c2_ensure_exists_idempotent (strL "/w") (strL "f") (some "Z") (fun _ => none) rfl

/-- C3: For an existing file: whitespace-only content plus
`content_when_empty` makes `ensure_exists` write exactly the provided
content; non-whitespace content is left untouched whatever the options
and content argument; and every branch returns the `FileMeta` of the
target. -/
theorem c3_content_when_empty (wks p : PathStr) (s : String) (fs : Fs)
    (h : fs (resolvePath wks p) = some s) :
    (isEmptyContent s = true →
      ((fileEnsureExists wks p (some "Y") (some { content_when_empty := true }) fs).2)
        (resolvePath wks p) = some "Y")
    ∧ (isEmptyContent s = false →
      ∀ (c : Option String) (opts : Option EnsureExistsOptions),
        (fileEnsureExists wks p c opts fs).2 = fs)
    ∧ (∀ (c : Option String) (opts : Option EnsureExistsOptions),
        (fileEnsureExists wks p c opts fs).1 = FileMeta.ofPath p) := by
  refine ⟨?_, ?_, ?_⟩
  · intro he
    simp [fileEnsureExists, h, he, fsSet]
  · intro he c opts
    simp [fileEnsureExists, h, he]
  · intro c opts
    simp only [fileEnsureExists, h]
    split <;> rfl

/-- Witness for C3 at a whitespace-only file. -/
theorem c3_witness :
    (isEmptyContent " " = true →
      ((fileEnsureExists (strL "/w") (strL "f") (some "Y")
          (some { content_when_empty := true }) (fun _ => some " ")).2)
        (resolvePath (strL "/w") (strL "f")) = some "Y")
    ∧ (isEmptyContent " " = false →
      ∀ (c : Option String) (opts : Option EnsureExistsOptions),
        (fileEnsureExists (strL "/w") (strL "f") c opts (fun _ => some " ")).2
          = (fun _ => some " "))
    ∧ (∀ (c : Option String) (opts : Option EnsureExistsOptions),
        (fileEnsureExists (strL "/w") (strL "f") c opts (fun _ => some " ")).1
          = FileMeta.ofPath (strL "f")) :=
  c3_content_when_empty (strL "/w") (strL "f") " " (fun _ => some " ") rfl

-- endregion

-- region: Claim C8 — no-match behaviour and error propagation

/-- C8: A glob query with zero filesystem matches makes `file.first`
return the null sentinel and `file.list` / `file.list_load` return an
empty sequence, none of them an error; while a walk error or a malformed
globs argument is propagated as an error, not swallowed. -/
theorem c8_no_match_and_propagation (wks : PathStr) (g : String) (fs : Fs) :
    fileFirst wks (.str g) none (fun _ _ => .ok []) = .ok none
    ∧ fileList wks (.str g) none (fun _ _ => .ok []) = .ok []
    ∧ fileListLoad wks (.str g) none (fun _ _ => .ok []) fs = .ok []
    ∧ (∀ e, fileFirst wks (.str g) none (fun _ _ => .error e) = .error e)
    ∧ (∀ e, fileList wks (.str g) none (fun _ _ => .error e) = .error e)
    ∧ (∀ e, fileListLoad wks (.str g) none (fun _ _ => .error e) fs = .error e)
    ∧ (∀ (n : Int) (walk : PathStr → List String → Except String (List PathStr)),
        fileFirst wks (.num n) none walk
          = .error "file::file_list globs argument - Expected a string or a list of strings") :=
  ⟨rfl, rfl, rfl, fun _ => rfl, fun _ => rfl, fun _ => rfl, fun _ _ => rfl⟩

-- endregion

-- region: Claim C5 — Windows-style classification

/-- C5: The OS-normalized join classifies the first non-empty fragment as
Windows-style exactly when its second character is `:` or it begins with
`\`; a Windows-style first fragment makes all components join with `\`
(forward slashes converted), and a non-Windows-style first fragment joins
with the host's native separator. -/
theorem c5_windows_classification :
    (∀ s : PathStr, isWindowsStyle s = true ↔ (s[1]? = some ':' ∨ s.head? = some '\\'))
    ∧ (∀ mainSep : Char,
        joinOsNormalized mainSep [strL "C:/Users", strL "Admin", strL "file.txt"]
          = some (strL "C:\\Users\\Admin\\file.txt"))
    ∧ (∀ mainSep : Char, mainSep = '/' ∨ mainSep = '\\' →
        joinOsNormalized mainSep [strL "folder", strL "subfolder", strL "file.txt"]
          = some (strL "folder" ++ mainSep :: strL "subfolder" ++ mainSep :: strL "file.txt")) := by
  refine ⟨?_, fun mainSep => rfl, ?_⟩
  · intro s
    match s with
    | [] => simp [isWindowsStyle]
    | [a] => simp [isWindowsStyle]
    | a :: b :: t =>
      simp [isWindowsStyle, List.getD]
  · intro mainSep h
    rcases h with rfl | rfl <;> rfl

/-- Witness for C5's native-separator clause at the host separator. -/
theorem c5_witness :
    joinOsNormalized '/' [strL "folder", strL "subfolder", strL "file.txt"]
      = some (strL "folder" ++ '/' :: strL "subfolder" ++ '/' :: strL "file.txt") :=
  c5_windows_classification.2.2 '/' (Or.inl rfl)

-- endregion

-- region: Claim C7 — options coercion

/-- Counterexample to C7: a non-boolean `content_when_empty` (here the
string `"yes"`) is not an error naming the key and expected type — the
options parse succeeds, the value coerced to `true` by Lua truthiness. -/
theorem c7_counterexample :
    EnsureExistsOptions.fromLua (.table [("content_when_empty", .str "yes")] [])
      = .ok { content_when_empty := true } := rfl

/-- C7 (amended): Omitting the whole options argument is not an error and
every option takes its default (`base_dir` = workspace,
`content_when_empty` = false, `absolute` = false); a present non-string
`base_dir` is an error whose text names `base_dir` and `string`; but a
present non-boolean `content_when_empty` is not an error — it is coerced
by Lua truthiness (any non-nil, non-false value counts as `true`) — and a
non-table options value for `ensure_exists` is an error. -/
theorem c7_amended :
    (∀ wks : PathStr, computeBaseDir wks none = .ok wks)
    ∧ EnsureExistsOptions.ofLuaOpt none = .ok { content_when_empty := false }
    ∧ ((xGetBool none "absolute").getD false = false)
    ∧ (∀ (wks : PathStr) (fields : List (String × LuaValue)) (seq : List LuaValue)
        (v : LuaValue), lookupField fields "base_dir" = some v → (∀ s, v ≠ .str s) →
        computeBaseDir wks (some (.table fields seq))
          = .error "utils.file... options.base_dir must be of type string is present")
    ∧ (∃ a b, strL "utils.file... options.base_dir must be of type string is present"
          = a ++ strL "base_dir" ++ b)
    ∧ (∃ a b, strL "utils.file... options.base_dir must be of type string is present"
          = a ++ strL "string" ++ b)
    ∧ (∀ (fields : List (String × LuaValue)) (seq : List LuaValue),
        EnsureExistsOptions.ofLuaOpt (some (.table fields seq))
          = .ok { content_when_empty :=
              luaTruthy ((lookupField fields "content_when_empty").getD .nil) })
    ∧ (∀ s : String, luaTruthy (.str s) = true)
    ∧ (∀ n : Int, EnsureExistsOptions.ofLuaOpt (some (.num n))
        = .error "EnsureExistsOptions should be a table") := by
  refine ⟨fun wks => rfl, rfl, rfl, ?_, ?_, ?_, fun fields seq => rfl, fun s => rfl,
    fun n => rfl⟩
  · intro wks fields seq v hv hs
    simp only [computeBaseDir, getValuePropAsString, hv]
    cases v with
    | str s => exact absurd rfl (hs s)
    | nil => rfl
    | boolean b => rfl
    | num n => rfl
    | table f q => rfl
  · exact ⟨strL "utils.file... options.", strL " must be of type string is present", by decide⟩
  · exact ⟨strL "utils.file... options.base_dir must be of type ", strL " is present", by decide⟩

/-- Witness for C7 (amended) at a concrete wrong-typed `base_dir`. -/
theorem c7_witness :
    computeBaseDir (strL "/w") (some (.table [("base_dir", .num 3)] []))
      = .error "utils.file... options.base_dir must be of type string is present" :=
  c7_amended.2.2.2.1 (strL "/w") [("base_dir", .num 3)] [] (.num 3) rfl
    (by intro s h; cases h)

-- endregion

-- region: Claim C4 — OS-normalized join, separator handling

theorem head?_dropWhile_not (p : Char → Bool) (l : List Char) :
    ∀ c, (l.dropWhile p).head? = some c → p c = false := by
  induction l with
  | nil => simp
  | cons a t ih =>
    intro c h
    by_cases hp : p a
    · rw [List.dropWhile_cons_of_pos hp] at h
      exact ih c h
    · rw [List.dropWhile_cons_of_neg hp] at h
      simp at h
      subst h
      simpa using hp

theorem trimEndSeps_getLast (s : PathStr) :
    ∀ c, (trimEndSeps s).getLast? = some c → isSepChar c = false := by
  intro c h
  rw [trimEndSeps, List.getLast?_reverse] at h
  exact head?_dropWhile_not isSepChar s.reverse c h

theorem trimBothSeps_getLast (s : PathStr) :
    ∀ c, (trimBothSeps s).getLast? = some c → isSepChar c = false := by
  intro c h
  exact trimEndSeps_getLast _ c h

theorem partFn_getLast_ne_sep (isWin : Bool) (sep : Char)
    (hsep : sep = '/' ∨ sep = '\\') (c : PathStr) :
    ∀ x, (partFn isWin c).getLast? = some x → x ≠ sep := by
  intro x hx
  cases isWin with
  | false =>
    have hx' : (trimBothSeps c).getLast? = some x := by simpa [partFn] using hx
    have h1 := trimBothSeps_getLast c x hx'
    simp [isSepChar] at h1
    rcases hsep with rfl | rfl
    · exact h1.1
    · exact h1.2
  | true =>
    have hx' : (slashToBack (trimBothSeps c)).getLast? = some x := by simpa [partFn] using hx
    rw [slashToBack, List.getLast?_map] at hx'
    match hl : (trimBothSeps c).getLast? with
    | none => rw [hl] at hx'; simp at hx'
    | some y =>
      rw [hl] at hx'
      have h1 := trimBothSeps_getLast c y hl
      simp [isSepChar] at h1
      have hxy : x = y := by
        have h2 : (if y = '/' then '\\' else y) = x := by simpa using hx'
        rw [if_neg h1.1] at h2
        exact h2.symm
      subst hxy
      rcases hsep with rfl | rfl
      · exact h1.1
      · exact h1.2

theorem joinLoop_spec (sep : Char) (isWin : Bool)
    (hp : ∀ c : PathStr, ∀ x, (partFn isWin c).getLast? = some x → x ≠ sep)
    (parts : List PathStr) :
    ∀ (acc : PathStr), (∀ x, acc.getLast? = some x → x ≠ sep) →
      joinLoop sep isWin acc parts
        = acc ++ ((parts.map (partFn isWin)).filter (· ≠ [])).flatMap (fun p => sep :: p) := by
  induction parts with
  | nil => intro acc hacc; simp [joinLoop]
  | cons c rest ih =>
    intro acc hacc
    by_cases hpart : partFn isWin c = []
    · rw [joinLoop, if_pos hpart, ih acc hacc]
      simp [hpart]
    · have hcond : ¬ acc.getLast? = some sep := by
        intro hx; exact hacc sep hx rfl
      rw [joinLoop, if_neg hpart, if_neg hcond]
      have hacc' : ∀ x, (acc ++ sep :: partFn isWin c).getLast? = some x → x ≠ sep := by
        intro x hx
        rw [List.getLast?_append_of_ne_nil _ (by simp)] at hx
        rw [show sep :: partFn isWin c = [sep] ++ partFn isWin c from rfl,
          List.getLast?_append_of_ne_nil _ hpart] at hx
        exact hp c x hx
      rw [ih _ hacc']
      simp [hpart, List.flatMap_cons]

theorem filter_map_filter_empty (f : PathStr → PathStr) (hf : f [] = []) (l : List PathStr) :
    ((l.filter (· ≠ [])).map f).filter (· ≠ []) = (l.map f).filter (· ≠ []) := by
  induction l with
  | nil => rfl
  | cons c t ih =>
    by_cases hc : c = []
    · subst hc
      simpa [List.filter_cons, hf] using ih
    · by_cases hfc : f c = []
      · simpa [List.filter_cons, hc, hfc] using ih
      · simpa [List.filter_cons, hc, hfc] using ih

/-- The clean re-composition the OS-normalized join implements: the
trimmed first fragment, then every later fragment trimmed at both ends,
dropped when nothing is left, joined by single separators. -/
theorem joinOsNormalized_spec (mainSep : Char) (hsep : mainSep = '/' ∨ mainSep = '\\')
    (c0 : PathStr) (rest : List PathStr) (h0 : c0 ≠ [])
    (hw : isWindowsStyle c0 = false) :
    joinOsNormalized mainSep (c0 :: rest)
      = some (joinWith mainSep (trimEndSeps c0 ::
          ((rest.map trimBothSeps).filter (· ≠ [])))) := by
  have hfil : (c0 :: rest).filter (· ≠ []) = c0 :: rest.filter (· ≠ []) := by
    simp [List.filter_cons, h0]
  rw [joinOsNormalized]
  simp only [List.isEmpty_cons, Bool.false_eq_true, if_false, hfil, hw, Bool.false_eq_true,
    if_false]
  have hacc : ∀ x, (trimEndSeps c0).getLast? = some x → x ≠ mainSep := by
    intro x hx
    have h1 := trimEndSeps_getLast c0 x hx
    simp [isSepChar] at h1
    rcases hsep with rfl | rfl
    · exact h1.1
    · exact h1.2
  rw [joinLoop_spec mainSep false (partFn_getLast_ne_sep false mainSep hsep) _ _ hacc]
  have hmap : ((rest.filter (· ≠ [])).map (partFn false)).filter (· ≠ [])
      = (rest.map trimBothSeps).filter (· ≠ []) := by
    rw [filter_map_filter_empty (partFn false) rfl rest]
    have hpf : partFn false = trimBothSeps := by
      funext c
      simp [partFn]
    rw [hpf]
  rw [hmap]
  rfl

/-- Windows-mode counterpart of `joinOsNormalized_spec`. -/
theorem joinOsNormalized_spec_win (mainSep : Char)
    (c0 : PathStr) (rest : List PathStr) (h0 : c0 ≠ [])
    (hw : isWindowsStyle c0 = true) :
    joinOsNormalized mainSep (c0 :: rest)
      = some (joinWith '\\' (slashToBack (trimEndSeps c0) ::
          ((rest.map (fun c => slashToBack (trimBothSeps c))).filter (· ≠ [])))) := by
  have hfil : (c0 :: rest).filter (· ≠ []) = c0 :: rest.filter (· ≠ []) := by
    simp [List.filter_cons, h0]
  rw [joinOsNormalized]
  simp only [List.isEmpty_cons, Bool.false_eq_true, if_false, hfil, hw, if_true]
  have hacc : ∀ x, (slashToBack (trimEndSeps c0)).getLast? = some x → x ≠ '\\' := by
    intro x hx
    rw [slashToBack, List.getLast?_map] at hx
    match hl : (trimEndSeps c0).getLast? with
    | none => rw [hl] at hx; simp at hx
    | some y =>
      rw [hl] at hx
      have h1 := trimEndSeps_getLast c0 y hl
      simp [isSepChar] at h1
      have hxy : x = y := by
        have h2 : (if y = '/' then '\\' else y) = x := by simpa using hx
        rw [if_neg h1.1] at h2
        exact h2.symm
      subst hxy
      exact h1.2
  rw [joinLoop_spec '\\' true (partFn_getLast_ne_sep true '\\' (Or.inr rfl)) _ _ hacc]
  have hmap : ((rest.filter (· ≠ [])).map (partFn true)).filter (· ≠ [])
      = (rest.map (fun c => slashToBack (trimBothSeps c))).filter (· ≠ []) := by
    rw [filter_map_filter_empty (partFn true) rfl rest]
    have hpf : partFn true = fun c => slashToBack (trimBothSeps c) := by
      funext c
      simp [partFn]
    rw [hpf]
  rw [hmap]
  rfl

/-- Counterexample to C4: a run of separators inside a fragment is not
collapsed — `join_os_normalized("a//b", "c")` keeps the double slash. -/
theorem c4_counterexample :
    joinOsNormalized '/' [strL "a//b", strL "c"] = some (strL "a//b/c")
    ∧ strL "a//b/c" ≠ strL "a/b/c" := ⟨rfl, by decide⟩

/-- C4 (amended): The OS-normalized join does not decompose fragments
into components; it drops empty fragments, trims each fragment's leading
and trailing separators (the first fragment: trailing only), drops
fragments that trim to nothing, and joins what is left with single
separators — so separator runs at fragment boundaries collapse, runs
inside a fragment are preserved, and `..` components are kept literally,
not resolved. -/
theorem c4_amended (mainSep : Char) (hsep : mainSep = '/' ∨ mainSep = '\\')
    (c0 : PathStr) (rest : List PathStr) (h0 : c0 ≠ []) :
    (isWindowsStyle c0 = false →
      joinOsNormalized mainSep (c0 :: rest)
        = some (joinWith mainSep (trimEndSeps c0 ::
            ((rest.map trimBothSeps).filter (· ≠ [])))))
    ∧ (isWindowsStyle c0 = true →
      joinOsNormalized mainSep (c0 :: rest)
        = some (joinWith '\\' (slashToBack (trimEndSeps c0) ::
            ((rest.map (fun c => slashToBack (trimBothSeps c))).filter (· ≠ [])))))
    ∧ joinOsNormalized '/' [strL "a", strL "..", strL "b"] = some (strL "a/../b") :=
  ⟨fun hw => joinOsNormalized_spec mainSep hsep c0 rest h0 hw,
   fun hw => joinOsNormalized_spec_win mainSep c0 rest h0 hw,
   rfl⟩

/-- Witness for C4 (amended) at concrete fragments `x`, `y`. -/
theorem c4_witness :
    joinOsNormalized '/' [strL "x", strL "y"]
      = some (joinWith '/' (trimEndSeps (strL "x")
          :: (([strL "y"].map trimBothSeps).filter (· ≠ [])))) :=
  (c4_amended '/' (Or.inl rfl) (strL "x") [strL "y"] (by decide)).1 (by rfl)

-- endregion

-- region: Claim C6 — join/split round trip

theorem getLast?_ne_slash_of_no_slash (s : PathStr) (hs : '/' ∉ s) :
    s.getLast? ≠ some '/' := by
  intro hx
  exact hs (List.mem_of_mem_getLast? hx)

theorem head?_ne_slash_of_no_slash (s : PathStr) (hs : '/' ∉ s) :
    s.head? ≠ some '/' := by
  intro hx
  cases s with
  | nil => simp at hx
  | cons a t =>
    simp at hx
    exact hs (by simp [hx])

theorem pathJoin_foldl_simple (segs : List PathStr) :
    ∀ acc, acc ≠ [] → acc.getLast? ≠ some '/' →
      (∀ s ∈ segs, s ≠ [] ∧ '/' ∉ s) →
      segs.foldl pathBufPush acc = acc ++ segs.flatMap (fun s => '/' :: s) := by
  induction segs with
  | nil => intro acc _ _ _; simp
  | cons s rest ih =>
    intro acc hne hlast h
    obtain ⟨hs, hslash⟩ := h s (by simp)
    have hpush : pathBufPush acc s = acc ++ '/' :: s := by
      rw [pathBufPush, if_neg (head?_ne_slash_of_no_slash s hslash), if_pos ⟨hne, hlast⟩]
    rw [List.foldl_cons, hpush,
      ih (acc ++ '/' :: s) (by simp) ?_ (fun x hx => h x (by simp [hx]))]
    · simp
    · rw [List.getLast?_append_of_ne_nil _ (by simp),
        show '/' :: s = ['/'] ++ s from rfl, List.getLast?_append_of_ne_nil _ hs]
      exact getLast?_ne_slash_of_no_slash s hslash

theorem pathJoinList_simple (segs : List PathStr)
    (h : ∀ s ∈ segs, s ≠ [] ∧ '/' ∉ s) :
    pathJoinList segs = joinWith '/' segs := by
  cases segs with
  | nil => rfl
  | cons s rest =>
    obtain ⟨hs, hslash⟩ := h s (by simp)
    have hpush : pathBufPush [] s = s := by
      rw [pathBufPush, if_neg (head?_ne_slash_of_no_slash s hslash)]
      simp
    rw [pathJoinList, List.foldl_cons, hpush,
      pathJoin_foldl_simple rest s hs (getLast?_ne_slash_of_no_slash s hslash)
        (fun x hx => h x (by simp [hx]))]
    rfl

theorem splitSep_no_sep (s : PathStr) (h : '/' ∉ s) : splitSep s = [s] := by
  induction s with
  | nil => rfl
  | cons c t ih =>
    have hc : c ≠ '/' := fun hx => h (by simp [hx])
    have ht : '/' ∉ t := fun hx => h (by simp [hx])
    rw [splitSep, if_neg hc, ih ht]

theorem splitSep_append (s t : PathStr) (h : '/' ∉ s) :
    splitSep (s ++ '/' :: t) = s :: splitSep t := by
  induction s with
  | nil => simp [splitSep]
  | cons c s' ih =>
    have hc : c ≠ '/' := fun hx => h (by simp [hx])
    have hs' : '/' ∉ s' := fun hx => h (by simp [hx])
    rw [List.cons_append, splitSep, if_neg hc, ih hs']

theorem splitSep_joinWith (segs : List PathStr) (hne : segs ≠ [])
    (h : ∀ s ∈ segs, '/' ∉ s) :
    splitSep (joinWith '/' segs) = segs := by
  induction segs with
  | nil => exact absurd rfl hne
  | cons s rest ih =>
    cases rest with
    | nil =>
      rw [joinWith]
      simp only [List.flatMap_nil, List.append_nil]
      exact splitSep_no_sep s (h s (by simp))
    | cons r rs =>
      have hjoin : joinWith '/' (s :: r :: rs) = s ++ '/' :: joinWith '/' (r :: rs) := by
        rw [joinWith, joinWith, List.flatMap_cons]
        simp
      rw [hjoin, splitSep_append _ _ (h s (by simp)),
        ih (by simp) (fun x hx => h x (by simp [hx]))]

theorem parseComponents_joinWith (segs : List PathStr)
    (h : ∀ s ∈ segs, s ≠ [] ∧ '/' ∉ s ∧ s ≠ ['.'] ∧ s ≠ ['.', '.'])
    (hne : segs ≠ []) :
    parseComponents (joinWith '/' segs) = segs.map .normal := by
  obtain ⟨s0, rest0, rfl⟩ : ∃ a l, segs = a :: l := by
    cases segs with
    | nil => exact absurd rfl hne
    | cons a l => exact ⟨a, l, rfl⟩
  obtain ⟨h01, h02, _, _⟩ := h s0 (by simp)
  have hbody : parseBody (joinWith '/' (s0 :: rest0)) = (s0 :: rest0).map .normal := by
    rw [parseBody, splitSep_joinWith _ (by simp) (fun x hx => (h x hx).2.1)]
    rw [List.filter_eq_self.mpr (fun x hx => by simpa using (h x hx).1)]
    exact List.map_congr_left fun x hx => by
      obtain ⟨_, _, h3, h4⟩ := h x hx
      simp [toComp, h3, h4]
  have hhead : (joinWith '/' (s0 :: rest0)).head? ≠ some '/' := by
    rw [joinWith, List.head?_append_of_ne_nil _ h01]
    exact head?_ne_slash_of_no_slash s0 h02
  have hnocur : ∀ x ∈ (s0 :: rest0).map Component.normal, x ≠ Component.curDir := by
    intro x hx
    simp only [List.mem_map] at hx
    obtain ⟨y, _, rfl⟩ := hx
    simp
  rw [parseComponents, if_neg hhead, hbody,
    List.filter_eq_self.mpr (fun x hx => by simpa using hnocur x hx)]
  rw [if_neg ?_]
  intro hx
  rw [List.map_cons] at hx
  simp at hx

theorem renderComponents_normals (segs : List PathStr) :
    renderComponents (segs.map .normal) = joinWith '/' segs := by
  cases segs with
  | nil => rfl
  | cons s t =>
    show renderComponents (.normal s :: t.map .normal) = _
    simp only [renderComponents, List.map_cons, List.map_map]
    have hcomp : renderComp ∘ Component.normal = id := by
      funext x
      rfl
    rw [hcomp, List.map_id]
    rfl

/-- Counterexample to C6: with segments `["a", "."]` — separator-free and
non-empty — `split(join(segments))` is `("", "a")`, not
`(join(["a"]), ".") = ("a", ".")`: the trailing `.` is normalized away by
the host's parent/file-name semantics. -/
theorem c6_counterexample :
    pathSplit (pathJoinList [strL "a", strL "."]) = (strL "", strL "a")
    ∧ pathSplit (pathJoinList [strL "a", strL "."])
        ≠ (pathJoinList [strL "a"], strL ".") := by
  constructor
  · rfl
  · decide

/-- C6 (amended): For every non-empty sequence of simple segments —
separator-free, non-empty, and neither `.` nor `..` —
`split(join(segments))` yields `(join(segments[:-1]), segments[-1])`,
including the one-segment case, where the join of the empty remainder is
the empty string, agreeing with the parent component `split` returns. -/
theorem c6_join_split_round_trip (init : List PathStr) (lastSeg : PathStr)
    (h : ∀ s ∈ init ++ [lastSeg], s ≠ [] ∧ '/' ∉ s ∧ s ≠ ['.'] ∧ s ≠ ['.', '.']) :
    pathSplit (pathJoinList (init ++ [lastSeg])) = (pathJoinList init, lastSeg) := by
  have h' : ∀ s ∈ init ++ [lastSeg], s ≠ [] ∧ '/' ∉ s :=
    fun s hs => ⟨(h s hs).1, (h s hs).2.1⟩
  rw [pathJoinList_simple _ h']
  have hcomp := parseComponents_joinWith _ h (by simp)
  have hpar : pathParent (joinWith '/' (init ++ [lastSeg]))
      = some (renderComponents (init.map Component.normal)) := by
    rw [pathParent, hcomp, List.map_append, List.map_singleton, List.getLast?_concat,
      List.dropLast_concat]
  have hfn : pathFileName (joinWith '/' (init ++ [lastSeg])) = some lastSeg := by
    rw [pathFileName, hcomp, List.map_append, List.map_singleton, List.getLast?_concat]
  rw [pathSplit, hpar, hfn, Option.getD_some, Option.getD_some,
    renderComponents_normals,
    ← pathJoinList_simple init (fun s hs => h' s (by simp [hs]))]

/-- Witness for C6 (amended) at segments `["a", "b", "c"]`. -/
theorem c6_witness :
    pathSplit (pathJoinList ([strL "a", strL "b"] ++ [strL "c"]))
      = (pathJoinList [strL "a", strL "b"], strL "c") :=
  c6_join_split_round_trip [strL "a", strL "b"] (strL "c") (by decide)

-- endregion

-- region: Claim C9 — JSON round trip, auxiliary lemmas

/-- True when the input does not continue with a digit (so a number
literal just parsed is complete). -/
def headNoDigit : List Char → Bool
  | [] => true
  | c :: _ => !c.isDigit

theorem expectChars_append (es cs : List Char) : expectChars es (es ++ cs) = some cs := by
  induction es with
  | nil => rfl
  | cons e es ih => simp [expectChars, ih]

theorem digitChar_digit : ∀ k, k < 10 →
    (Nat.digitChar k).isDigit = true ∧ (Nat.digitChar k).toNat - 48 = k := by decide

theorem digitsOf_shape (n : Nat) : ∃ d t, digitsOf n = d :: t ∧ d.isDigit = true := by
  induction n using Nat.strong_induction_on with
  | _ n ih =>
    by_cases hn : n < 10
    · rw [digitsOf, dif_pos hn]
      exact ⟨_, [], rfl, (digitChar_digit n hn).1⟩
    · obtain ⟨d, t, hd, hdig⟩ := ih (n / 10) (Nat.div_lt_self (by omega) (by omega))
      rw [digitsOf, dif_neg hn, hd]
      exact ⟨d, t ++ [Nat.digitChar (n % 10)], by simp, hdig⟩

theorem parseGo_stop (acc : Nat) (rest : List Char) (h : headNoDigit rest = true) :
    parseGo acc rest = (acc, rest) := by
  cases rest with
  | nil => rfl
  | cons c t =>
    have hc : c.isDigit = false := by simpa [headNoDigit] using h
    simp [parseGo, hc]

theorem parseGo_digitsOf (n : Nat) : ∀ acc rest,
    parseGo acc (digitsOf n ++ rest)
      = parseGo (acc * 10 ^ (digitsOf n).length + n) rest := by
  induction n using Nat.strong_induction_on with
  | _ n ih =>
    intro acc rest
    by_cases hn : n < 10
    · obtain ⟨hdig, hval⟩ := digitChar_digit n hn
      rw [digitsOf, dif_pos hn, List.singleton_append]
      simp only [parseGo, hdig, if_true, List.length_singleton, pow_one, hval]
    · have hlt : n / 10 < n := Nat.div_lt_self (by omega) (by omega)
      obtain ⟨hdig, hval⟩ := digitChar_digit (n % 10) (Nat.mod_lt n (by omega))
      rw [digitsOf, dif_neg hn, List.append_assoc, ih (n / 10) hlt,
        List.singleton_append]
      simp only [parseGo, hdig, if_true, hval]
      rw [List.length_append, List.length_singleton, pow_succ]
      have hdm : n / 10 * 10 + n % 10 = n := by omega
      have h1 : (acc * 10 ^ (digitsOf (n / 10)).length + n / 10) * 10 + n % 10
          = acc * (10 ^ (digitsOf (n / 10)).length * 10) + (n / 10 * 10 + n % 10) := by
        ring
      rw [h1, hdm]

theorem parseGo_digits_full (n : Nat) (rest : List Char) (h : headNoDigit rest = true) :
    parseGo 0 (digitsOf n ++ rest) = (n, rest) := by
  rw [parseGo_digitsOf, parseGo_stop _ _ h]
  simp

theorem hexVal_hexDigitChar : ∀ k, k < 16 → hexVal (hexDigitChar k) = some k := by decide

theorem parseStringChars_escape (s : List Char) :
    ∀ rest, parseStringChars (escapeStr s ++ '"' :: rest) = some (s, rest) := by
  induction s with
  | nil =>
    intro rest
    rw [show escapeStr [] = [] from rfl, List.nil_append, parseStringChars.eq_def]
    simp
  | cons c s ih =>
    intro rest
    have hstep : escapeStr (c :: s) = escapeChar c ++ escapeStr s := by
      simp [escapeStr]
    rw [hstep, List.append_assoc]
    by_cases h1 : c = '"'
    · subst h1
      rw [show escapeChar '"' = ['\\', '"'] from rfl]
      simp only [List.cons_append, List.nil_append]
      rw [parseStringChars.eq_def]
      simp [decodeSimpleEscape, ih]
    · by_cases h2 : c = '\\'
      · subst h2
        rw [show escapeChar '\\' = ['\\', '\\'] from rfl]
        simp only [List.cons_append, List.nil_append]
        rw [parseStringChars.eq_def]
        simp [decodeSimpleEscape, ih]
      · by_cases h3 : c = '\x08'
        · subst h3
          rw [show escapeChar '\x08' = ['\\', 'b'] from rfl]
          simp only [List.cons_append, List.nil_append]
          rw [parseStringChars.eq_def]
          simp [decodeSimpleEscape, ih]
        · by_cases h4 : c = '\x0c'
          · subst h4
            rw [show escapeChar '\x0c' = ['\\', 'f'] from rfl]
            simp only [List.cons_append, List.nil_append]
            rw [parseStringChars.eq_def]
            simp [decodeSimpleEscape, ih]
          · by_cases h5 : c = '\n'
            · subst h5
              rw [show escapeChar '\n' = ['\\', 'n'] from rfl]
              simp only [List.cons_append, List.nil_append]
              rw [parseStringChars.eq_def]
              simp [decodeSimpleEscape, ih]
            · by_cases h6 : c = '\r'
              · subst h6
                rw [show escapeChar '\r' = ['\\', 'r'] from rfl]
                simp only [List.cons_append, List.nil_append]
                rw [parseStringChars.eq_def]
                simp [decodeSimpleEscape, ih]
              · by_cases h7 : c = '\t'
                · subst h7
                  rw [show escapeChar '\t' = ['\\', 't'] from rfl]
                  simp only [List.cons_append, List.nil_append]
                  rw [parseStringChars.eq_def]
                  simp [decodeSimpleEscape, ih]
                · by_cases h8 : c.toNat < 32
                  · have hdiv : c.toNat / 16 < 16 := by omega
                    have hmod : c.toNat % 16 < 16 := Nat.mod_lt _ (by omega)
                    have h0 : hexVal '0' = some 0 := by decide
                    have hx1 := hexVal_hexDigitChar _ hdiv
                    have hx2 := hexVal_hexDigitChar _ hmod
                    have hchar : Char.ofNat (((0 * 16 + 0) * 16 + c.toNat / 16) * 16
                        + c.toNat % 16) = c := by
                      have hv : ((0 * 16 + 0) * 16 + c.toNat / 16) * 16 + c.toNat % 16
                          = c.toNat := by
                        have := Nat.div_add_mod c.toNat 16
                        omega
                      rw [hv, Char.ofNat_toNat]
                    have hchar' : Char.ofNat (c.toNat / 16 * 16 + c.toNat % 16) = c := by
                      have hv : c.toNat / 16 * 16 + c.toNat % 16 = c.toNat := by omega
                      rw [hv, Char.ofNat_toNat]
                    rw [escapeChar, if_neg h1, if_neg h2, if_neg h3, if_neg h4, if_neg h5,
                      if_neg h6, if_neg h7, if_pos h8]
                    simp only [List.cons_append, List.nil_append]
                    rw [parseStringChars.eq_def]
                    simp [h0, hx1, hx2, ih, hchar, hchar']
                  · rw [escapeChar, if_neg h1, if_neg h2, if_neg h3, if_neg h4, if_neg h5,
                      if_neg h6, if_neg h7, if_neg h8, List.singleton_append]
                    rw [parseStringChars.eq_def]
                    simp [h1, h2, ih]

-- region: render unfolding and shape lemmas

theorem renderJson_null : renderJson .null = strL "null" := by
  rw [renderJson.eq_def]

theorem renderJson_true : renderJson (.bool true) = strL "true" := by
  rw [renderJson.eq_def]

theorem renderJson_false : renderJson (.bool false) = strL "false" := by
  rw [renderJson.eq_def]

theorem renderJson_num (n : Int) : renderJson (.num n) = renderInt n := by
  rw [renderJson.eq_def]

theorem renderJson_str (s : List Char) :
    renderJson (.str s) = '"' :: escapeStr s ++ ['"'] := by
  rw [renderJson.eq_def]

theorem renderJson_arr (es : List Json) :
    renderJson (.arr es) = '[' :: renderItems es ++ [']'] := by
  rw [renderJson.eq_def]

theorem renderJson_obj (fs : List (List Char × Json)) :
    renderJson (.obj fs) = '{' :: renderFields fs ++ ['}'] := by
  rw [renderJson.eq_def]

theorem renderItems_nil : renderItems [] = [] := by
  rw [renderItems.eq_def]

theorem renderItems_single (e : Json) : renderItems [e] = renderJson e := by
  rw [renderItems.eq_def]

theorem renderItems_cons2 (e f : Json) (t : List Json) :
    renderItems (e :: f :: t) = renderJson e ++ ',' :: renderItems (f :: t) := by
  rw [renderItems.eq_def]

theorem renderField_eq (k : List Char) (v : Json) :
    renderField k v = '"' :: escapeStr k ++ '"' :: ':' :: renderJson v := by
  rw [renderField.eq_def]

theorem renderFields_nil : renderFields [] = [] := by
  rw [renderFields.eq_def]

theorem renderFields_single (k : List Char) (v : Json) :
    renderFields [(k, v)] = renderField k v := by
  rw [renderFields.eq_def]

theorem renderFields_cons2 (k : List Char) (v : Json) (kv : List Char × Json)
    (t : List (List Char × Json)) :
    renderFields ((k, v) :: kv :: t) = renderField k v ++ ',' :: renderFields (kv :: t) := by
  rw [renderFields.eq_def]

theorem renderInt_shape (n : Int) :
    ∃ c t, renderInt n = c :: t ∧ (c.isDigit = true ∨ c = '-') := by
  cases n with
  | ofNat m =>
    obtain ⟨d, t, hd, hdig⟩ := digitsOf_shape m
    exact ⟨d, t, by simp [renderInt, hd], Or.inl hdig⟩
  | negSucc m => exact ⟨'-', digitsOf (m + 1), by simp [renderInt], Or.inr rfl⟩

theorem renderJson_shape (v : Json) :
    ∃ c t, renderJson v = c :: t ∧ c ≠ ']' ∧ c ≠ '}' ∧ c ≠ ',' := by
  cases v with
  | null => exact ⟨'n', _, renderJson_null, by decide, by decide, by decide⟩
  | bool b =>
    cases b with
    | true => exact ⟨'t', _, renderJson_true, by decide, by decide, by decide⟩
    | false => exact ⟨'f', _, renderJson_false, by decide, by decide, by decide⟩
  | num n =>
    obtain ⟨c, t, hct, hc⟩ := renderInt_shape n
    refine ⟨c, t, by rw [renderJson_num, hct], ?_, ?_, ?_⟩ <;>
      rcases hc with hdig | rfl <;> first
        | decide
        | (intro hx; subst hx; exact absurd hdig (by decide))
  | str s => exact ⟨'"', _, renderJson_str s, by decide, by decide, by decide⟩
  | arr es => exact ⟨'[', _, renderJson_arr es, by decide, by decide, by decide⟩
  | obj fs => exact ⟨'{', _, renderJson_obj fs, by decide, by decide, by decide⟩

theorem renderJson_length_pos (v : Json) : 1 ≤ (renderJson v).length := by
  obtain ⟨c, t, h, _⟩ := renderJson_shape v
  rw [h]
  simp

theorem render_le_renderItems (e : Json) (es : List Json) (he : e ∈ es) :
    (renderJson e).length ≤ (renderItems es).length := by
  induction es with
  | nil => simp at he
  | cons f t iht =>
    cases t with
    | nil =>
      have : e = f := by simpa using he
      subst this
      rw [renderItems_single]
    | cons f' t' =>
      rw [renderItems_cons2]
      rcases List.mem_cons.mp he with rfl | hmem
      · simp
      · have := iht hmem
        simp only [List.length_append, List.length_cons]
        omega

theorem renderField_length (k : List Char) (v : Json) :
    (renderField k v).length = (escapeStr k).length + (renderJson v).length + 3 := by
  rw [renderField_eq]
  simp
  omega

theorem renderValue_le_renderFields (kv : List Char × Json) (fs : List (List Char × Json))
    (hkv : kv ∈ fs) :
    (renderJson kv.2).length + 3 ≤ (renderFields fs).length := by
  induction fs with
  | nil => simp at hkv
  | cons f t iht =>
    obtain ⟨k0, v0⟩ := f
    cases t with
    | nil =>
      have : kv = (k0, v0) := by simpa using hkv
      subst this
      dsimp only
      rw [renderFields_single, renderField_length]
      omega
    | cons f' t' =>
      rw [renderFields_cons2]
      rcases List.mem_cons.mp hkv with rfl | hmem
      · dsimp only
        rw [List.length_append, renderField_length]
        omega
      · have := iht hmem
        simp only [List.length_append, List.length_cons]
        omega

-- region: parser adequacy on rendered values

/-- Adequacy of the fuelled parser on one rendered value: with enough
fuel, parsing the rendering followed by any non-digit-starting remainder
returns exactly the value and the remainder. -/
def ParsesValue (v : Json) : Prop :=
  ∀ g, (renderJson v).length ≤ g → ∀ rest, headNoDigit rest = true →
    parseValue g (renderJson v ++ rest) = some (v, rest)

theorem parseArrRest_renderItems : ∀ (es : List Json), es ≠ [] →
    (∀ e ∈ es, ParsesValue e) →
    ∀ g, (renderItems es).length + 1 ≤ g → ∀ rest acc,
      parseArrRest g (renderItems es ++ ']' :: rest) acc = some (.arr (acc ++ es), rest) := by
  intro es
  induction es with
  | nil => intro h; exact absurd rfl h
  | cons e es' ih =>
    intro _ hA g hg rest acc
    obtain ⟨g', rfl⟩ : ∃ g', g = g' + 1 := ⟨g - 1, by omega⟩
    cases es' with
    | nil =>
      rw [renderItems_single] at hg ⊢
      have hlen : (renderJson e).length ≤ g' := by omega
      have he := hA e (by simp) g' hlen (']' :: rest) rfl
      rw [parseArrRest.eq_def]
      simp [he]
    | cons f t =>
      rw [renderItems_cons2] at hg ⊢
      have hlen1 : (renderJson e).length ≤ g' := by
        simp only [List.length_append, List.length_cons] at hg
        omega
      have he := hA e (by simp) g' hlen1
        (',' :: (renderItems (f :: t) ++ ']' :: rest)) rfl
      have hshape : (renderJson e ++ ',' :: renderItems (f :: t)) ++ ']' :: rest
          = renderJson e ++ ',' :: (renderItems (f :: t) ++ ']' :: rest) := by
        simp
      rw [hshape, parseArrRest.eq_def]
      have hg2 : (renderItems (f :: t)).length + 1 ≤ g' := by
        simp only [List.length_append, List.length_cons] at hg
        have := renderJson_length_pos e
        omega
      have hi := ih (by simp) (fun x hx => hA x (by simp [hx])) g' hg2
      simp [he, hi]

theorem parseObjRest_renderFields : ∀ (fs : List (List Char × Json)), fs ≠ [] →
    (∀ kv ∈ fs, ParsesValue kv.2) →
    ∀ g, (renderFields fs).length + 1 ≤ g → ∀ rest acc,
      parseObjRest g (renderFields fs ++ '}' :: rest) acc = some (.obj (acc ++ fs), rest) := by
  intro fs
  induction fs with
  | nil => intro h; exact absurd rfl h
  | cons kv fs' ih =>
    obtain ⟨k, v⟩ := kv
    intro _ hA g hg rest acc
    obtain ⟨g', rfl⟩ : ∃ g', g = g' + 1 := ⟨g - 1, by omega⟩
    have hv0 : ParsesValue v := hA (k, v) (by simp)
    cases fs' with
    | nil =>
      rw [renderFields_single, renderField_eq] at hg ⊢
      have hlen : (renderJson v).length ≤ g' := by
        simp only [List.length_cons, List.length_append] at hg
        omega
      have hshape : ('"' :: escapeStr k ++ '"' :: ':' :: renderJson v) ++ '}' :: rest
          = '"' :: (escapeStr k ++ '"' :: (':' :: (renderJson v ++ '}' :: rest))) := by
        simp
      rw [hshape, parseObjRest.eq_def]
      have hk := parseStringChars_escape k (':' :: (renderJson v ++ '}' :: rest))
      have hvp := hv0 g' hlen ('}' :: rest) rfl
      simp [hk, hvp]
    | cons kv2 t =>
      rw [renderFields_cons2, renderField_eq] at hg ⊢
      have hlen : (renderJson v).length ≤ g' := by
        simp only [List.length_cons, List.length_append] at hg
        omega
      have hshape : (('"' :: escapeStr k ++ '"' :: ':' :: renderJson v)
            ++ ',' :: renderFields (kv2 :: t)) ++ '}' :: rest
          = '"' :: (escapeStr k ++ '"' :: (':' :: (renderJson v
              ++ ',' :: (renderFields (kv2 :: t) ++ '}' :: rest)))) := by
        simp
      rw [hshape, parseObjRest.eq_def]
      have hk := parseStringChars_escape k
        (':' :: (renderJson v ++ ',' :: (renderFields (kv2 :: t) ++ '}' :: rest)))
      have hvp := hv0 g' hlen (',' :: (renderFields (kv2 :: t) ++ '}' :: rest)) rfl
      have hg2 : (renderFields (kv2 :: t)).length + 1 ≤ g' := by
        simp only [List.length_cons, List.length_append] at hg
        have := renderJson_length_pos v
        omega
      have hi := ih (by simp) (fun x hx => hA x (by simp [hx])) g' hg2
      simp [hk, hvp, hi]

theorem isDigit_not_special (c : Char) (h : c.isDigit = true) :
    c ≠ 'n' ∧ c ≠ 't' ∧ c ≠ 'f' ∧ c ≠ '"' ∧ c ≠ '[' ∧ c ≠ '{' ∧ c ≠ '-' := by
  refine ⟨?_, ?_, ?_, ?_, ?_, ?_, ?_⟩ <;> (intro hx; subst hx; exact absurd h (by decide))

theorem parsesValue_all : ∀ (n : Nat) (v : Json), (renderJson v).length ≤ n → ParsesValue v := by
  intro n
  induction n using Nat.strong_induction_on with
  | _ n ihn =>
    intro v hv g hg rest hrest
    obtain ⟨g', rfl⟩ : ∃ g', g = g' + 1 :=
      ⟨g - 1, by have := renderJson_length_pos v; omega⟩
    cases v with
    | null =>
      rw [renderJson_null, show strL "null" ++ rest = 'n' :: (strL "ull" ++ rest) from rfl,
        parseValue.eq_def]
      simp [expectChars_append]
    | bool b =>
      cases b with
      | true =>
        rw [renderJson_true, show strL "true" ++ rest = 't' :: (strL "rue" ++ rest) from rfl,
          parseValue.eq_def]
        simp [expectChars_append]
      | false =>
        rw [renderJson_false,
          show strL "false" ++ rest = 'f' :: (strL "alse" ++ rest) from rfl,
          parseValue.eq_def]
        simp [expectChars_append]
    | str s =>
      rw [renderJson_str,
        show ('"' :: escapeStr s ++ ['"']) ++ rest = '"' :: (escapeStr s ++ '"' :: rest)
          from by simp,
        parseValue.eq_def]
      simp [parseStringChars_escape]
    | num i =>
      cases i with
      | ofNat m =>
        obtain ⟨d, t, hd, hdig⟩ := digitsOf_shape m
        obtain ⟨hn1, hn2, hn3, hn4, hn5, hn6, hn7⟩ := isDigit_not_special d hdig
        have hpg : parseGo 0 (d :: (t ++ rest)) = (m, rest) := by
          rw [← List.cons_append, ← hd]
          exact parseGo_digits_full m rest hrest
        rw [renderJson_num, show renderInt (Int.ofNat m) = digitsOf m from rfl, hd,
          List.cons_append, parseValue.eq_def]
        simp [hn1, hn2, hn3, hn4, hn5, hn6, hn7, hdig, hpg]
      | negSucc m =>
        obtain ⟨d, t, hd, hdig⟩ := digitsOf_shape (m + 1)
        have hpg : parseGo 0 (d :: (t ++ rest)) = (m + 1, rest) := by
          rw [← List.cons_append, ← hd]
          exact parseGo_digits_full (m + 1) rest hrest
        rw [renderJson_num, show renderInt (Int.negSucc m) = '-' :: digitsOf (m + 1)
            from rfl, hd, List.cons_append, List.cons_append, parseValue.eq_def]
        simp [hdig, hpg, Int.negOfNat]
    | arr es =>
      cases es with
      | nil =>
        rw [renderJson_arr, renderItems_nil,
          show ('[' :: ([] : List Char) ++ [']']) ++ rest = '[' :: ']' :: rest from by simp,
          parseValue.eq_def]
        simp
      | cons e es' =>
        have harrlen : (renderItems (e :: es')).length + 2 ≤ n := by
          rw [renderJson_arr] at hv
          simpa using hv
        have hA : ∀ x ∈ e :: es', ParsesValue x := by
          intro x hx
          refine ihn (renderJson x).length ?_ x le_rfl
          have h1 := render_le_renderItems x (e :: es') hx
          omega
        obtain ⟨c0, t0, hct, hc1, hc2, hc3⟩ := renderJson_shape e
        have hih : (renderItems (e :: es')).head? = some c0 := by
          cases es' with
          | nil => rw [renderItems_single, hct]; rfl
          | cons f t => rw [renderItems_cons2, hct]; rfl
        have hne1 : ¬ (renderItems (e :: es')).head? = some ']' := by
          rw [hih]
          intro hx
          exact hc1 (by simpa using hx)
        have hne2 : ¬ renderItems (e :: es') = [] := by
          intro hnil
          rw [hnil] at hih
          simp at hih
        have hg2 : (renderItems (e :: es')).length + 1 ≤ g' := by
          rw [renderJson_arr] at hg
          simp only [List.length_cons, List.length_append, List.length_singleton] at hg
          omega
        rw [renderJson_arr,
          show ('[' :: renderItems (e :: es') ++ [']']) ++ rest
            = '[' :: (renderItems (e :: es') ++ ']' :: rest) from by simp,
          parseValue.eq_def]
        have harr := parseArrRest_renderItems (e :: es') (by simp) hA g' hg2 rest []
        simp [hne1, hne2, harr]
    | obj fs =>
      cases fs with
      | nil =>
        rw [renderJson_obj, renderFields_nil,
          show ('{' :: ([] : List Char) ++ ['}']) ++ rest = '{' :: '}' :: rest from by simp,
          parseValue.eq_def]
        simp
      | cons kv fs' =>
        obtain ⟨k, v0⟩ := kv
        have hobjlen : (renderFields ((k, v0) :: fs')).length + 2 ≤ n := by
          rw [renderJson_obj] at hv
          simpa using hv
        have hA : ∀ x ∈ (k, v0) :: fs', ParsesValue x.2 := by
          intro x hx
          refine ihn (renderJson x.2).length ?_ x.2 le_rfl
          have h1 := renderValue_le_renderFields x ((k, v0) :: fs') hx
          omega
        have hih : (renderFields ((k, v0) :: fs')).head? = some '"' := by
          cases fs' with
          | nil => rw [renderFields_single, renderField_eq]; rfl
          | cons f t => rw [renderFields_cons2, renderField_eq]; rfl
        have hne1 : ¬ (renderFields ((k, v0) :: fs')).head? = some '}' := by
          rw [hih]
          intro hx
          simp at hx
        have hne2 : ¬ renderFields ((k, v0) :: fs') = [] := by
          intro hnil
          rw [hnil] at hih
          simp at hih
        have hg2 : (renderFields ((k, v0) :: fs')).length + 1 ≤ g' := by
          rw [renderJson_obj] at hg
          simp only [List.length_cons, List.length_append, List.length_singleton] at hg
          omega
        rw [renderJson_obj,
          show ('{' :: renderFields ((k, v0) :: fs') ++ ['}']) ++ rest
            = '{' :: (renderFields ((k, v0) :: fs') ++ '}' :: rest) from by simp,
          parseValue.eq_def]
        have hobj := parseObjRest_renderFields ((k, v0) :: fs') (by simp) hA g' hg2 rest []
        simp [hne1, hne2, hobj]

-- endregion

-- region: Claim C9 — the round trip

/-- C9: JSON round trip — for every representable structured value `v`,
`json.parse(json.stringify_to_line(v))` is deep-equal to `v`. -/
theorem c9_json_round_trip (v : Json) : parse (stringify_to_line v) = some v := by
  have hp := parsesValue_all (renderJson v).length v le_rfl
    ((renderJson v).length + 1) (by omega) [] rfl
  rw [List.append_nil] at hp
  simp only [stringify_to_line, parse, hp]

-- endregion

end Aipack
